import Mathlib

/-!
Verification development for the spiketoolkit bandpass filter
(src/spiketoolkit/preprocessing/bandpass_filter.py).

The Python source is shallowly embedded over the real numbers:

* scipy.special.erf is modelled by its mathematical definition,
  the normalised Gaussian integral;
* numpy spectra become functions from bin indices to values;
* the numpy pair np.fft.rfft / np.fft.irfft is modelled by the discrete
  Fourier transform formulas from the numpy documentation, including the
  Hermitian extension of the half spectrum and the even output length
  2*((n/2+1)-1) of irfft;
* two dimensional numpy arrays (channels x samples) become a Mat structure
  with explicit row and column counts; entries outside the shape are
  normalised to zero so that array equality is plain structure equality;
* scipy.signal.butter is an external designer and enters as a function
  parameter; np.roots and the stability test become a predicate on the
  root multiset of the coefficient polynomial;
* fallible construction returns Except, and _do_filter returns an Option
  which is none exactly when no branch assigns the filtered chunk.
-/

open scoped Classical
open Finset intervalIntegral MeasureTheory

noncomputable section

/-! ## Definitions -/

/-- scipy.special.erf, modelled by its defining Gaussian integral:
erf x = 2 / sqrt pi * integral of exp (-t^2) for t from 0 to x. -/
def erf (x : ℝ) : ℝ :=
  2 / Real.sqrt Real.pi * ∫ t in (0:ℝ)..x, Real.exp (-t ^ 2)

/-- Folded DFT bin index of _create_filter_kernel:
k_inds = where(k_inds <= (N + 1) / 2, k_inds, k_inds - N).
For an integer k the float comparison k <= (N + 1) / 2 is exactly the
integer comparison 2 * k <= N + 1. -/
def foldInd (N k : ℕ) : ℤ :=
  if 2 * k ≤ N + 1 then (k : ℤ) else (k : ℤ) - (N : ℤ)

/-- The frequency grid of _create_filter_kernel: fgrid = df * k_inds with
df = 1 / T and T = N / sampling_frequency. -/
def fgrid (N : ℕ) (fs : ℝ) (k : ℕ) : ℝ :=
  1 / ((N : ℝ) / fs) * ((foldInd N k : ℤ) : ℝ)

/-- The array val of _create_filter_kernel just before the final sqrt:
the ones vector, multiplied by the high pass erf factor with the DC bin
(abs(k_inds) < 0.1, on integers exactly 10 * |folded index| < 1) forced to
zero when freq_min is nonzero, then multiplied by the low pass erf factor
when freq_max is nonzero. -/
def filterVal (N : ℕ) (fs fmin fmax fwid : ℝ) (k : ℕ) : ℝ :=
  (if fmin ≠ 0 then
    (if 10 * |foldInd N k| < 1 then 0
     else 1 * ((1 + erf (3 * (|fgrid N fs k| - fmin) / fmin)) / 2))
   else 1) *
  (if fmax ≠ 0 then (1 - erf ((|fgrid N fs k| - fmax) / fwid)) / 2 else 1)

/-- The kernel returned by _create_filter_kernel: the square root of val. -/
def filterKernel (N : ℕ) (fs fmin fmax fwid : ℝ) (k : ℕ) : ℝ :=
  Real.sqrt (filterVal N fs fmin fmax fwid k)

/-- The kernel exactly as the specification words it, for comparison with
filterKernel: bin k maps to frequency k/T when k <= (N+1)/2 and to (k-N)/T
otherwise, with T = N/fs; the final gain is the square root of the product of
the high pass factor (applied only when freq_min is nonzero, with the DC bin
of folded index below 0.1 in absolute value forced to 0) and the low pass
factor (applied only when freq_max is nonzero). -/
def kernelSpec (N : ℕ) (fs fmin fmax fwid : ℝ) (k : ℕ) : ℝ :=
  let T : ℝ := (N : ℝ) / fs
  let kf : ℝ := if (k : ℝ) ≤ ((N : ℝ) + 1) / 2 then (k : ℝ) else (k : ℝ) - (N : ℝ)
  let f : ℝ := kf / T
  Real.sqrt
    ((if fmin = 0 then 1
      else if |kf| < 0.1 then 0 else (1 + erf (3 * (|f| - fmin) / fmin)) / 2) *
     (if fmax = 0 then 1 else (1 - erf ((|f| - fmax) / fwid)) / 2))

/-- A two dimensional numpy array (channels x samples). -/
structure Mat where
  rows : ℕ
  cols : ℕ
  entry : ℕ → ℕ → ℝ

/-- Array constructor normalising entries outside the shape to zero, so that
equality of arrays is plain structure equality. -/
def mkMat (r c : ℕ) (f : ℕ → ℕ → ℝ) : Mat :=
  ⟨r, c, fun i j => if i < r ∧ j < c then f i j else 0⟩

/-- np.fft: unnormalised forward DFT value at bin k of the first n entries. -/
def dftc (n : ℕ) (x : ℕ → ℂ) (k : ℕ) : ℂ :=
  ∑ j in Finset.range n, x j * Complex.exp (-(2 * (Real.pi : ℂ) * Complex.I * (j : ℂ) * (k : ℂ)) / (n : ℂ))

/-- np.fft.rfft: forward DFT of a real row of length n; only the one sided
bins 0 .. n/2 are consumed downstream. -/
def rfft (n : ℕ) (x : ℕ → ℝ) (k : ℕ) : ℂ :=
  dftc n (fun j => ((x j : ℝ) : ℂ)) k

/-- Hermitian extension of a half spectrum of length h to the full length
2*(h-1), as assumed by np.fft.irfft for the spectrum of real data. -/
def hermExt (h : ℕ) (y : ℕ → ℂ) (k : ℕ) : ℂ :=
  if k < h then y k else starRingEnd ℂ (y (2 * (h - 1) - k))

/-- np.fft.irfft: real part of the normalised inverse DFT of the Hermitian
extension of the half spectrum; the output length is 2*(h-1). -/
def irfft (h : ℕ) (y : ℕ → ℂ) (j : ℕ) : ℝ :=
  ((1 / ((2 * (h - 1) : ℕ) : ℂ)) * ∑ k in Finset.range (2 * (h - 1)),
    hermExt h y k * Complex.exp (2 * (Real.pi : ℂ) * Complex.I * (j : ℂ) * (k : ℂ) / ((2 * (h - 1) : ℕ) : ℂ))).re

/-- The fft branch of BandpassFilterRecording._do_filter: per channel row,
rfft of the row, elementwise product with the kernel built from the chunk
sample count (truncated to the one sided spectrum length n/2+1 and tiled
over the rows), then irfft; the output has 2*((n/2+1)-1) samples per row. -/
def doFilterFFT (fs fmin fmax fwid : ℝ) (A : Mat) : Mat :=
  mkMat A.rows (2 * (A.cols / 2 + 1 - 1)) (fun c j =>
    irfft (A.cols / 2 + 1)
      (fun k => rfft A.cols (A.entry c) k * ((filterKernel A.cols fs fmin fmax fwid k : ℝ) : ℂ)) j)

/-- One output sample of a causal recursive filter with zero initial state. -/
def lfilterStep (b a : List ℝ) (xs ys : List ℝ) (n : ℕ) : ℝ :=
  ((∑ i in Finset.range b.length, if i ≤ n then b.getD i 0 * xs.getD (n - i) 0 else 0) -
   (∑ i in Finset.range a.length, if 1 ≤ i ∧ i ≤ n then a.getD i 0 * ys.getD (n - i) 0 else 0)) /
  a.getD 0 0

/-- Modelled from the spec: scipy.signal.lfilter (external collaborator),
the causal recursive filter with zero initial state, used to give the
RECURSIVE mode a definite shape preserving semantics (spec 4.3). -/
def lfilterM (b a : List ℝ) (xs : List ℝ) : List ℝ :=
  (List.range xs.length).foldl (fun ys n => ys ++ [lfilterStep b a xs ys n]) []

/-- Modelled from the spec: scipy.signal.filtfilt (external collaborator)
applies the recursive filter forward then backward along the sample axis of
each channel row, and returns an array of the same shape as its input
(spec 4.3: same shape in and out). -/
def filtfiltM (b a : List ℝ) (A : Mat) : Mat :=
  mkMat A.rows A.cols (fun c j =>
    ((lfilterM b a ((lfilterM b a ((List.range A.cols).map (A.entry c))).reverse)).reverse).getD j 0)

/-- The underlying recording collaborator: a frame count, a sampling
frequency, and a trace value for every channel id and frame index. -/
structure Recording where
  numFrames : ℕ
  fs : ℝ
  trace : ℕ → ℤ → ℝ

/-- Modelled from the spec: FilterRecording._read_chunk (plumbing that lives
outside the core source file) requests the raw samples of the window
[i1, i2) from the underlying recording; samples outside the valid frame
range [0, numFrames) are supplied as zero, so the returned array always has
i2 - i1 columns and one row per requested channel (spec 4.4). -/
def readChunk (r : Recording) (i1 i2 : ℤ) (channel_ids : List ℕ) : Mat :=
  mkMat channel_ids.length (i2 - i1).toNat (fun c j =>
    if 0 ≤ i1 + (j : ℤ) ∧ i1 + (j : ℤ) < (r.numFrames : ℤ)
    then r.trace (channel_ids.getD c 0) (i1 + (j : ℤ)) else 0)

/-- Python slice semantics arr[:, a : b] on the column axis (indices clamp
to the array width, no wrap around for the non negative indices used here). -/
def sliceCols (A : Mat) (a b : ℕ) : Mat :=
  mkMat A.rows (min b A.cols - min a A.cols) (fun c j => A.entry c (min a A.cols + j))

/-- The constructor parameters of BandpassFilterRecording. -/
structure BPParams where
  freq_min : ℝ
  freq_max : ℝ
  freq_wid : ℝ
  filter_type : String
  order : ℕ
  chunk_size : ℕ

/-- The constructed filtered view: the wrapped recording, the parameters,
and the designed (b, a) coefficient pair when filter_type is butter. -/
structure BPView where
  recording : Recording
  p : BPParams
  coeffs : Option (List ℝ × List ℝ)

/-- BandpassFilterRecording._do_filter: dispatches on filter_type; the fft
branch multiplies the one sided spectrum by the kernel, the butter branch
applies scipy.signal.filtfilt with the designed coefficients; any other
filter_type assigns no filtered chunk, which is modelled as none. -/
def do_filter (v : BPView) (A : Mat) : Option Mat :=
  if v.p.filter_type = "fft" then
    some (doFilterFFT v.recording.fs v.p.freq_min v.p.freq_max v.p.freq_wid A)
  else if v.p.filter_type = "butter" then
    v.coeffs.map (fun ba => filtfiltM ba.1 ba.2 A)
  else none

/-- BandpassFilterRecording.filter_chunk, generalised over the padding
constant: i1 = start_frame - padding, i2 = end_frame + padding, read the
padded chunk, filter it, return the column slice
[start_frame - i1 : end_frame - i1]. -/
def filter_chunkPad (v : BPView) (pad : ℕ) (start_frame end_frame : ℕ)
    (channel_ids : List ℕ) : Option Mat :=
  let i1 : ℤ := (start_frame : ℤ) - (pad : ℤ)
  let i2 : ℤ := (end_frame : ℤ) + (pad : ℤ)
  (do_filter v (readChunk v.recording i1 i2 channel_ids)).map
    (fun F => sliceCols F (((start_frame : ℤ) - i1).toNat) (((end_frame : ℤ) - i1).toNat))

/-- BandpassFilterRecording.filter_chunk with the fixed constant padding = 3000. -/
def filter_chunk (v : BPView) : ℕ → ℕ → List ℕ → Option Mat :=
  filter_chunkPad v 3000

/-- The polynomial with a numpy style coefficient list (highest degree
first) over the complex numbers, whose root multiset is what np.roots
computes. -/
def polyOfList (a : List ℝ) : Polynomial ℂ :=
  ∑ i in Finset.range a.length,
    Polynomial.C ((a.getD i 0 : ℝ) : ℂ) * Polynomial.X ^ (a.length - 1 - i)

/-- The stability test np.all(np.abs(np.roots(a)) < 1) on the denominator. -/
def stableDenom (a : List ℝ) : Prop :=
  ∀ z ∈ (polyOfList a).roots, Complex.abs z < 1

/-- BandpassFilterRecording.__init__. The external designer
scipy.signal.butter(order, [freq_min, freq_max] / (fs/2), btype=bandpass)
enters as the function parameter butter. In the butter branch the
coefficients are designed and the stability of the denominator roots is
checked, raising ValueError (Filter is not stable) on failure; every other
filter_type performs no design and no check. -/
def bandpassInit (butter : ℕ → ℝ → ℝ → List ℝ × List ℝ)
    (recording : Recording) (p : BPParams) : Except String BPView :=
  if p.filter_type = "butter" then
    let fn := recording.fs / 2
    let ba := butter p.order (p.freq_min / fn) (p.freq_max / fn)
    if stableDenom ba.2 then Except.ok ⟨recording, p, some ba⟩
    else Except.error "Filter is not stable"
  else Except.ok ⟨recording, p, none⟩

/-- The value returned by the bandpass_filter factory: either the plain
lazy view, or the view wrapped in the external whole recording disk cache
se.CacheRecordingExtractor (kept abstract as a constructor). -/
inductive FilterOutput where
  | plain (v : BPView)
  | cachedFile (v : BPView) (chunk_size : ℕ)

/-- The bandpass_filter factory: asserts that cache_chunks is off whenever
cache_to_file is requested, constructs the BandpassFilterRecording view,
and wraps it in the disk cache when cache_to_file is set. -/
def bandpass_filter (butter : ℕ → ℝ → ℝ → List ℝ × List ℝ)
    (recording : Recording) (freq_min freq_max freq_wid : ℝ) (filter_type : String)
    (order chunk_size : ℕ) (cache_to_file cache_chunks : Bool) :
    Except String FilterOutput :=
  if cache_to_file && cache_chunks then
    Except.error "if cache_to_file cache_chunks should be False"
  else
    match bandpassInit butter recording
        ⟨freq_min, freq_max, freq_wid, filter_type, order, chunk_size⟩ with
    | Except.error e => Except.error e
    | Except.ok v =>
        if cache_to_file then Except.ok (FilterOutput.cachedFile v chunk_size)
        else Except.ok (FilterOutput.plain v)

/-- A pure cosine test row (1, 0, -1, 0), the length four sampling of
cos(2 pi j / 4), used to exhibit a chunk on which filtering is not
idempotent. -/
def cosRow : ℕ → ℝ := fun j => if j = 0 then 1 else if j = 2 then -1 else 0

/-- The cosine test chunk with one channel and four samples. -/
def cosMat : Mat := mkMat 1 4 (fun _ j => cosRow j)

/-- A tiny fixture recording for witnesses. -/
def recW : Recording := ⟨100, 1, fun _ _ => 0⟩

/-- Fixture parameters with the fft filter type. -/
def pFftW : BPParams := ⟨300, 6000, 1000, "fft", 3, 30000⟩

/-- Fixture parameters with the butter filter type. -/
def pButterW : BPParams := ⟨300, 6000, 1000, "butter", 3, 30000⟩

/-- Fixture parameters with an unknown filter type. -/
def pHannW : BPParams := ⟨300, 6000, 1000, "hann", 3, 30000⟩

/-- Fixture fft view for witnesses. -/
def fftViewW : BPView := ⟨recW, pFftW, none⟩

/-- Fixture butter view for witnesses, with identity style coefficients. -/
def butterViewW : BPView := ⟨recW, pButterW, some ([1], [1])⟩

/-- Fixture stand in for scipy.signal.butter producing the denominator
[1, -2], whose root 2 lies outside the unit circle. -/
def butterUnstableW : ℕ → ℝ → ℝ → List ℝ × List ℝ := fun _ _ _ => ([1], [1, -2])

/-- Fixture stand in for scipy.signal.butter producing the constant
denominator [1], which has no roots at all. -/
def butterTrivW : ℕ → ℝ → ℝ → List ℝ × List ℝ := fun _ _ _ => ([1], [1])

end

/-! ## Theorems -/

theorem gaussian_integrable : Integrable (fun t : ℝ => Real.exp (-t ^ 2)) := by
  have h := integrable_exp_neg_mul_sq (b := 1) one_pos
  simpa using h

theorem gaussian_intervalIntegrable (a b : ℝ) :
    IntervalIntegrable (fun t : ℝ => Real.exp (-t ^ 2)) volume a b := by
  exact (Continuous.intervalIntegrable (by continuity) a b)

theorem gaussian_interval_lt (x : ℝ) :
    (∫ t in (0:ℝ)..x, Real.exp (-t ^ 2)) < Real.sqrt Real.pi / 2 := by
  have hpi : 0 < Real.sqrt Real.pi / 2 := by
    have := Real.sqrt_pos.mpr Real.pi_pos
    linarith
  rcases le_or_lt x 0 with hx | hx
  · have h1 : (∫ t in (0:ℝ)..x, Real.exp (-t ^ 2)) =
        -(∫ t in x..(0:ℝ), Real.exp (-t ^ 2)) := by
      rw [intervalIntegral.integral_symm]
    have h2 : 0 ≤ ∫ t in x..(0:ℝ), Real.exp (-t ^ 2) := by
      apply intervalIntegral.integral_nonneg hx
      intro u _
      positivity
    rw [h1]
    linarith
  · -- for positive x compare with the Gaussian integral over Ioi 0
    have hIoi : (∫ t in Set.Ioi (0:ℝ), Real.exp (-t ^ 2)) = Real.sqrt Real.pi / 2 := by
      have h := integral_gaussian_Ioi 1
      simpa using h
    have hsplit : (∫ t in Set.Ioi (0:ℝ), Real.exp (-t ^ 2)) =
        (∫ t in Set.Ioc (0:ℝ) x, Real.exp (-t ^ 2)) +
        (∫ t in Set.Ioi x, Real.exp (-t ^ 2)) := by
      rw [← MeasureTheory.setIntegral_union]
      · rw [Set.Ioc_union_Ioi_eq_Ioi hx.le]
      · exact Set.Ioc_disjoint_Ioi le_rfl
      · exact measurableSet_Ioi
      · exact gaussian_integrable.integrableOn
      · exact gaussian_integrable.integrableOn
    have htail : 0 < ∫ t in Set.Ioi x, Real.exp (-t ^ 2) := by
      have hsub : (∫ t in Set.Ioc x (x + 1), Real.exp (-t ^ 2)) ≤
          ∫ t in Set.Ioi x, Real.exp (-t ^ 2) := by
        apply MeasureTheory.setIntegral_mono_set gaussian_integrable.integrableOn
        · filter_upwards with t using le_of_lt (Real.exp_pos _)
        · exact (Set.Ioc_subset_Ioi_self).eventuallyLE
      have hpos : 0 < ∫ t in Set.Ioc x (x + 1), Real.exp (-t ^ 2) := by
        rw [← intervalIntegral.integral_of_le (by linarith : x ≤ x + 1)]
        apply intervalIntegral.intervalIntegral_pos_of_pos_on
          (gaussian_intervalIntegrable x (x + 1))
        · intro u _
          positivity
        · linarith
      linarith
    have hIoc : (∫ t in (0:ℝ)..x, Real.exp (-t ^ 2)) =
        ∫ t in Set.Ioc (0:ℝ) x, Real.exp (-t ^ 2) := by
      exact intervalIntegral.integral_of_le hx.le
    rw [hIoc]
    have : (∫ t in Set.Ioc (0:ℝ) x, Real.exp (-t ^ 2)) <
        ∫ t in Set.Ioi (0:ℝ), Real.exp (-t ^ 2) := by
      rw [hsplit]
      linarith
    linarith [hIoi ▸ this]

theorem erf_lt_one (x : ℝ) : erf x < 1 := by
  have hs : 0 < Real.sqrt Real.pi := Real.sqrt_pos.mpr Real.pi_pos
  have h := gaussian_interval_lt x
  have h2 : 2 / Real.sqrt Real.pi * (∫ t in (0:ℝ)..x, Real.exp (-t ^ 2)) <
      2 / Real.sqrt Real.pi * (Real.sqrt Real.pi / 2) := by
    apply mul_lt_mul_of_pos_left h
    positivity
  have h3 : 2 / Real.sqrt Real.pi * (Real.sqrt Real.pi / 2) = 1 := by
    field_simp
  calc erf x = 2 / Real.sqrt Real.pi * (∫ t in (0:ℝ)..x, Real.exp (-t ^ 2)) := rfl
    _ < 2 / Real.sqrt Real.pi * (Real.sqrt Real.pi / 2) := h2
    _ = 1 := h3

theorem erf_neg (x : ℝ) : erf (-x) = -erf x := by
  unfold erf
  have h : (∫ t in (0:ℝ)..(-x), Real.exp (-t ^ 2)) =
      -(∫ t in (0:ℝ)..x, Real.exp (-t ^ 2)) := by
    have h1 : (∫ t in (0:ℝ)..x, Real.exp (-(-t) ^ 2)) =
        ∫ t in (-x)..(-(0:ℝ)), Real.exp (-t ^ 2) :=
      intervalIntegral.integral_comp_neg (fun t => Real.exp (-t ^ 2))
    have h2 : (∫ t in (0:ℝ)..x, Real.exp (-(-t) ^ 2)) =
        ∫ t in (0:ℝ)..x, Real.exp (-t ^ 2) := by
      apply intervalIntegral.integral_congr
      intro t _
      ring_nf
    have h3 : (∫ t in (-x)..(-(0:ℝ)), Real.exp (-t ^ 2)) =
        -(∫ t in (-(0:ℝ))..(-x), Real.exp (-t ^ 2)) := by
      rw [intervalIntegral.integral_symm]
    rw [h2] at h1
    rw [h1, h3]
    norm_num
  rw [h]
  ring

theorem neg_one_lt_erf (x : ℝ) : -1 < erf x := by
  have h := erf_lt_one (-x)
  rw [erf_neg] at h
  linarith

theorem hp_factor_pos (z : ℝ) : 0 < (1 + erf z) / 2 := by
  have := neg_one_lt_erf z
  linarith

theorem hp_factor_lt_one (z : ℝ) : (1 + erf z) / 2 < 1 := by
  have := erf_lt_one z
  linarith

theorem lp_factor_pos (z : ℝ) : 0 < (1 - erf z) / 2 := by
  have := erf_lt_one z
  linarith

theorem lp_factor_lt_one (z : ℝ) : (1 - erf z) / 2 < 1 := by
  have := neg_one_lt_erf z
  linarith

/-- The integer DC test 10 * |m| < 1 is exactly the float test |m| < 0.1. -/
theorem dc_cond_iff (m : ℤ) : 10 * |m| < 1 ↔ |(m : ℝ)| < 0.1 := by
  have habs : |m| = (m.natAbs : ℤ) := Int.abs_eq_natAbs m
  constructor
  · intro h
    have hm : m = 0 := by
      rw [habs] at h
      omega
    rw [hm]
    norm_num
  · intro h
    by_contra hcon
    have h2 : (1 : ℤ) ≤ |m| := by
      rw [habs] at hcon ⊢
      omega
    have h3 : (1 : ℝ) ≤ |(m : ℝ)| := by
      rw [← Int.cast_abs]
      exact_mod_cast h2
    linarith

/-- The float fold test k <= (N + 1) / 2 is exactly the integer test 2k <= N + 1. -/
theorem fold_cond_iff (N k : ℕ) : ((k : ℝ) ≤ ((N : ℝ) + 1) / 2) ↔ 2 * k ≤ N + 1 := by
  rw [le_div_iff (by norm_num : (0:ℝ) < 2)]
  constructor
  · intro h
    have : (2 * k : ℝ) ≤ (N : ℝ) + 1 := by linarith
    exact_mod_cast this
  · intro h
    have : ((2 * k : ℕ) : ℝ) ≤ ((N + 1 : ℕ) : ℝ) := by exact_mod_cast h
    push_cast at this
    linarith

theorem foldInd_cast (N k : ℕ) :
    ((foldInd N k : ℤ) : ℝ) =
      if (k : ℝ) ≤ ((N : ℝ) + 1) / 2 then (k : ℝ) else (k : ℝ) - (N : ℝ) := by
  unfold foldInd
  by_cases h : 2 * k ≤ N + 1
  · rw [if_pos h, if_pos ((fold_cond_iff N k).mpr h)]
    push_cast
    ring
  · rw [if_neg h, if_neg (fun hr => h ((fold_cond_iff N k).mp hr))]
    push_cast
    ring

theorem fgrid_eq (N : ℕ) (fs : ℝ) (k : ℕ) :
    fgrid N fs k = ((foldInd N k : ℤ) : ℝ) / ((N : ℝ) / fs) := by
  unfold fgrid
  rw [one_div_mul_eq_div]

/-- In the degenerate all pass configuration freq_min = freq_max = 0 neither
shaping branch runs and the kernel is exactly one at every bin. -/
theorem filterKernel_allpass (N : ℕ) (fs fwid : ℝ) (k : ℕ) :
    filterKernel N fs 0 0 fwid k = 1 := by
  unfold filterKernel filterVal
  simp [Real.sqrt_one]

/-- C2: whenever freq_min is nonzero, the kernel is exactly zero at every bin
whose folded index satisfies the DC test |index| < 0.1 (scaled to integers as
10 * |index| < 1), regardless of the magnitudes of freq_min and freq_max. -/
theorem C2_dc_bin_zero (N : ℕ) (fs fmin fmax fwid : ℝ) (hmin : fmin ≠ 0)
    (k : ℕ) (hk : k < N) (hdc : 10 * |foldInd N k| < 1) :
    filterKernel N fs fmin fmax fwid k = 0 := by
  unfold filterKernel filterVal
  rw [if_pos hmin, if_pos hdc, zero_mul, Real.sqrt_zero]

theorem C2_dc_bin_zero_witness : filterKernel 4 1 300 6000 1000 0 = 0 :=
  C2_dc_bin_zero 4 1 300 6000 1000 (by norm_num) 0 (by norm_num) (by decide)

/-- C9: for a positive window length and sampling frequency and non negative
cutoff parameters (with a positive width when freq_max is nonzero), the value
fed to the square root is non negative and at most one, and every kernel value
lies in the closed interval [0, 1]. -/
theorem C9_kernel_values_in_unit_interval (N : ℕ) (fs fmin fmax fwid : ℝ)
    (hN : 0 < N) (hfs : 0 < fs) (hmin : 0 ≤ fmin) (hmax : 0 ≤ fmax)
    (hwid : fmax ≠ 0 → 0 < fwid) (k : ℕ) :
    0 ≤ filterVal N fs fmin fmax fwid k ∧ filterVal N fs fmin fmax fwid k ≤ 1 ∧
    0 ≤ filterKernel N fs fmin fmax fwid k ∧ filterKernel N fs fmin fmax fwid k ≤ 1 := by
  have hval : 0 ≤ filterVal N fs fmin fmax fwid k ∧ filterVal N fs fmin fmax fwid k ≤ 1 := by
    unfold filterVal
    set z1 := 3 * (|fgrid N fs k| - fmin) / fmin with hz1
    set z2 := (|fgrid N fs k| - fmax) / fwid with hz2
    have h1 : 0 ≤ (if fmin ≠ 0 then
        (if 10 * |foldInd N k| < 1 then 0 else 1 * ((1 + erf z1) / 2)) else 1) ∧
        (if fmin ≠ 0 then
        (if 10 * |foldInd N k| < 1 then 0 else 1 * ((1 + erf z1) / 2)) else 1) ≤ 1 := by
      by_cases hm : fmin ≠ 0
      · rw [if_pos hm]
        by_cases hdc : 10 * |foldInd N k| < 1
        · rw [if_pos hdc]
          norm_num
        · rw [if_neg hdc, one_mul]
          exact ⟨(hp_factor_pos z1).le, (hp_factor_lt_one z1).le⟩
      · rw [if_neg hm]
        norm_num
    have h2 : 0 ≤ (if fmax ≠ 0 then (1 - erf z2) / 2 else 1) ∧
        (if fmax ≠ 0 then (1 - erf z2) / 2 else 1) ≤ 1 := by
      by_cases hm : fmax ≠ 0
      · rw [if_pos hm]
        exact ⟨(lp_factor_pos z2).le, (lp_factor_lt_one z2).le⟩
      · rw [if_neg hm]
        norm_num
    constructor
    · exact mul_nonneg h1.1 h2.1
    · nlinarith [h1.1, h1.2, h2.1, h2.2]
  refine ⟨hval.1, hval.2, Real.sqrt_nonneg _, ?_⟩
  unfold filterKernel
  rw [Real.sqrt_le_left (by norm_num : (0:ℝ) ≤ 1)]
  nlinarith [hval.2]

theorem C9_kernel_values_in_unit_interval_witness :
    0 ≤ filterVal 2 1 300 6000 1000 0 ∧ filterVal 2 1 300 6000 1000 0 ≤ 1 ∧
    0 ≤ filterKernel 2 1 300 6000 1000 0 ∧ filterKernel 2 1 300 6000 1000 0 ≤ 1 :=
  C9_kernel_values_in_unit_interval 2 1 300 6000 1000 (by norm_num) (by norm_num)
    (by norm_num) (by norm_num) (fun _ => by norm_num) 0

/-- C6 counterexample: with freq_min = freq_max = 0 the DC bin of the kernel
is one, not the forced zero the claim asserts (the DC forcing line only runs
inside the freq_min nonzero branch). -/
theorem C6_counterexample : filterKernel 4 1 0 0 1000 0 = 1 ∧ (1 : ℝ) ≠ 0 :=
  ⟨filterKernel_allpass 4 1 1000 0, by norm_num⟩

/-- C6 amended: when freq_min = 0 and freq_max = 0 the kernel produced by
_create_filter_kernel is exactly one at every bin, including the DC bin; no
DC forcing occurs because that step is inside the freq_min nonzero branch. -/
theorem C6_allpass_kernel (N : ℕ) (fs fwid : ℝ) (k : ℕ) :
    filterKernel N fs 0 0 fwid k = 1 :=
  filterKernel_allpass N fs fwid k

/-- filterVal rewritten with the branch order of the specification: an
explicit high pass factor (one when freq_min = 0, zero at the DC bin) times
an explicit low pass factor (one when freq_max = 0). -/
theorem filterVal_branches (N : ℕ) (fs fmin fmax fwid : ℝ) (k : ℕ) :
    filterVal N fs fmin fmax fwid k =
      (if fmin = 0 then 1
       else if |((foldInd N k : ℤ) : ℝ)| < 0.1 then 0
       else (1 + erf (3 * (|fgrid N fs k| - fmin) / fmin)) / 2) *
      (if fmax = 0 then 1 else (1 - erf ((|fgrid N fs k| - fmax) / fwid)) / 2) := by
  unfold filterVal
  have hfst : (if fmin ≠ 0 then
      (if 10 * |foldInd N k| < 1 then 0
       else 1 * ((1 + erf (3 * (|fgrid N fs k| - fmin) / fmin)) / 2))
     else 1) =
      (if fmin = 0 then 1
       else if |((foldInd N k : ℤ) : ℝ)| < 0.1 then 0
       else (1 + erf (3 * (|fgrid N fs k| - fmin) / fmin)) / 2) := by
    by_cases h1 : fmin = 0
    · rw [if_neg (not_not_intro h1), if_pos h1]
    · rw [if_pos h1, if_neg h1]
      by_cases hdc : 10 * |foldInd N k| < 1
      · rw [if_pos hdc, if_pos ((dc_cond_iff _).mp hdc)]
      · rw [if_neg hdc, if_neg (fun h => hdc ((dc_cond_iff _).mpr h)), one_mul]
  have hsnd : (if fmax ≠ 0 then (1 - erf ((|fgrid N fs k| - fmax) / fwid)) / 2 else 1) =
      (if fmax = 0 then 1 else (1 - erf ((|fgrid N fs k| - fmax) / fwid)) / 2) := by
    by_cases h2 : fmax = 0
    · rw [if_neg (not_not_intro h2), if_pos h2]
    · rw [if_pos h2, if_neg h2]
  rw [hfst, hsnd]

/-- C3: the frequency grid maps bin k to frequency k/T when k <= (N+1)/2 and
to (k-N)/T otherwise, with T = N/fs, and the kernel value at each bin equals
the square root of the product of the high pass factor (applied only when
freq_min is nonzero, with DC forced to zero) and the low pass factor (applied
only when freq_max is nonzero), exactly as the specification words it. -/
theorem C3_kernel_matches_spec (N : ℕ) (fs fmin fmax fwid : ℝ) (k : ℕ) (hk : k < N) :
    fgrid N fs k =
      (if (k : ℝ) ≤ ((N : ℝ) + 1) / 2 then (k : ℝ) / ((N : ℝ) / fs)
       else ((k : ℝ) - (N : ℝ)) / ((N : ℝ) / fs)) ∧
    filterKernel N fs fmin fmax fwid k = kernelSpec N fs fmin fmax fwid k := by
  constructor
  · rw [fgrid_eq, foldInd_cast]
    by_cases h : (k : ℝ) ≤ ((N : ℝ) + 1) / 2
    · rw [if_pos h, if_pos h]
    · rw [if_neg h, if_neg h]
  · unfold filterKernel
    simp only [kernelSpec]
    congr 1
    rw [filterVal_branches, ← foldInd_cast, ← fgrid_eq]

theorem C3_kernel_matches_spec_witness :
    fgrid 4 1 3 =
      (if ((3:ℕ) : ℝ) ≤ (((4:ℕ) : ℝ) + 1) / 2 then ((3:ℕ) : ℝ) / (((4:ℕ) : ℝ) / 1)
       else (((3:ℕ) : ℝ) - ((4:ℕ) : ℝ)) / (((4:ℕ) : ℝ) / 1)) ∧
    filterKernel 4 1 300 6000 1000 3 = kernelSpec 4 1 300 6000 1000 3 :=
  C3_kernel_matches_spec 4 1 300 6000 1000 3 (by norm_num)

/-! ## Shapes of the matrix pipeline -/

theorem Mat.ext' (A B : Mat) (hr : A.rows = B.rows) (hc : A.cols = B.cols)
    (he : A.entry = B.entry) : A = B := by
  cases A
  cases B
  simp_all

@[simp] theorem mkMat_rows (r c : ℕ) (f : ℕ → ℕ → ℝ) : (mkMat r c f).rows = r := rfl

@[simp] theorem mkMat_cols (r c : ℕ) (f : ℕ → ℕ → ℝ) : (mkMat r c f).cols = c := rfl

@[simp] theorem doFilterFFT_rows (fs fmin fmax fwid : ℝ) (A : Mat) :
    (doFilterFFT fs fmin fmax fwid A).rows = A.rows := rfl

@[simp] theorem doFilterFFT_cols (fs fmin fmax fwid : ℝ) (A : Mat) :
    (doFilterFFT fs fmin fmax fwid A).cols = 2 * (A.cols / 2 + 1 - 1) := rfl

@[simp] theorem filtfiltM_rows (b a : List ℝ) (A : Mat) : (filtfiltM b a A).rows = A.rows := rfl

@[simp] theorem filtfiltM_cols (b a : List ℝ) (A : Mat) : (filtfiltM b a A).cols = A.cols := rfl

@[simp] theorem readChunk_rows (r : Recording) (i1 i2 : ℤ) (ids : List ℕ) :
    (readChunk r i1 i2 ids).rows = ids.length := rfl

@[simp] theorem readChunk_cols (r : Recording) (i1 i2 : ℤ) (ids : List ℕ) :
    (readChunk r i1 i2 ids).cols = (i2 - i1).toNat := rfl

@[simp] theorem sliceCols_rows (A : Mat) (a b : ℕ) : (sliceCols A a b).rows = A.rows := rfl

@[simp] theorem sliceCols_cols (A : Mat) (a b : ℕ) :
    (sliceCols A a b).cols = min b A.cols - min a A.cols := rfl

/-- C1: filter_chunk is filter_chunkPad at the fixed constant 3000; for any
valid request (start < end) and any channel subset, the fft branch reads the
padded window [start - pad, end + pad), filters it, and returns the column
slice at offsets [pad, pad + (end - start)), whose shape is exactly
end - start samples per requested channel, for every padding constant >= 1;
the butter branch also returns exactly end - start samples per channel. -/
theorem C1_filter_chunk_crop (v : BPView) (pad s e : ℕ) (ids : List ℕ)
    (hse : s < e) (hpad : 1 ≤ pad) :
    filter_chunk v s e ids = filter_chunkPad v 3000 s e ids ∧
    (v.p.filter_type = "fft" →
      ∃ M, filter_chunkPad v pad s e ids = some M ∧
        M = sliceCols
              (doFilterFFT v.recording.fs v.p.freq_min v.p.freq_max v.p.freq_wid
                (readChunk v.recording ((s : ℤ) - (pad : ℤ)) ((e : ℤ) + (pad : ℤ)) ids))
              pad (pad + (e - s)) ∧
        M.cols = e - s ∧ M.rows = ids.length) ∧
    (v.p.filter_type = "butter" → ∀ ba, v.coeffs = some ba →
      ∃ M, filter_chunkPad v pad s e ids = some M ∧ M.cols = e - s ∧ M.rows = ids.length) := by
  have h1 : ((s : ℤ) - ((s : ℤ) - (pad : ℤ))).toNat = pad := by omega
  have h2 : ((e : ℤ) - ((s : ℤ) - (pad : ℤ))).toNat = pad + (e - s) := by omega
  have h3 : (((e : ℤ) + (pad : ℤ)) - ((s : ℤ) - (pad : ℤ))).toNat = (e - s) + 2 * pad := by omega
  refine ⟨rfl, ?_, ?_⟩
  · intro hft
    refine ⟨_, ?_, rfl, ?_, ?_⟩
    · simp only [filter_chunkPad, do_filter]
      rw [if_pos hft]
      simp only [Option.map_some']
      rw [h1, h2]
    · simp only [sliceCols_cols, doFilterFFT_cols, readChunk_cols, h3]
      omega
    · simp only [sliceCols_rows, doFilterFFT_rows, readChunk_rows]
  · intro hbt ba hba
    refine ⟨sliceCols
        (filtfiltM ba.1 ba.2
          (readChunk v.recording ((s : ℤ) - (pad : ℤ)) ((e : ℤ) + (pad : ℤ)) ids))
        pad (pad + (e - s)), ?_, ?_, ?_⟩
    · simp only [filter_chunkPad, do_filter]
      rw [if_neg (by rw [hbt]; decide), if_pos hbt, hba]
      simp only [Option.map_some']
      rw [h1, h2]
    · simp only [sliceCols_cols, filtfiltM_cols, readChunk_cols, h3]
      omega
    · simp only [sliceCols_rows, filtfiltM_rows, readChunk_rows]

theorem C1_filter_chunk_crop_witness :
    (∃ M, filter_chunkPad fftViewW 3000 0 5 [0, 1] = some M ∧ M.cols = 5 ∧ M.rows = 2) ∧
    (∃ M, filter_chunkPad butterViewW 3000 0 5 [0, 1] = some M ∧ M.cols = 5 ∧ M.rows = 2) := by
  constructor
  · obtain ⟨M, hM, _, hc, hr⟩ :=
      (C1_filter_chunk_crop fftViewW 3000 0 5 [0, 1] (by norm_num) (by norm_num)).2.1 rfl
    exact ⟨M, hM, hc, hr⟩
  · obtain ⟨M, hM, hc, hr⟩ :=
      (C1_filter_chunk_crop butterViewW 3000 0 5 [0, 1] (by norm_num) (by norm_num)).2.2 rfl
        ([1], [1]) rfl
    exact ⟨M, hM, hc, hr⟩

/-- C4: with the butter filter type, construction fails (with the ValueError
message Filter is not stable) precisely when some root of the designed
denominator polynomial has magnitude not strictly below one; the check runs
at construction time, before any filtering call, and on failure no view
value is produced. -/
theorem C4_butter_stability (butter : ℕ → ℝ → ℝ → List ℝ × List ℝ)
    (recording : Recording) (p : BPParams) (hbt : p.filter_type = "butter") :
    bandpassInit butter recording p = Except.error "Filter is not stable" ↔
      ∃ z ∈ (polyOfList (butter p.order (p.freq_min / (recording.fs / 2))
        (p.freq_max / (recording.fs / 2))).2).roots, ¬ Complex.abs z < 1 := by
  simp only [bandpassInit]
  rw [if_pos hbt]
  by_cases hs : stableDenom (butter p.order (p.freq_min / (recording.fs / 2))
      (p.freq_max / (recording.fs / 2))).2
  · rw [if_pos hs]
    constructor
    · intro h
      exact absurd h (by simp)
    · rintro ⟨z, hz, hlt⟩
      exact absurd (hs z hz) hlt
  · rw [if_neg hs]
    unfold stableDenom at hs
    push_neg at hs
    obtain ⟨z, hz, hle⟩ := hs
    exact iff_of_true rfl ⟨z, hz, not_lt.mpr hle⟩

theorem C4_butter_stability_witness :
    bandpassInit butterUnstableW recW pButterW = Except.error "Filter is not stable" ↔
      ∃ z ∈ (polyOfList (butterUnstableW pButterW.order (pButterW.freq_min / (recW.fs / 2))
        (pButterW.freq_max / (recW.fs / 2))).2).roots, ¬ Complex.abs z < 1 :=
  C4_butter_stability butterUnstableW recW pButterW rfl

/-- C7: requesting both the whole recording disk cache and the per chunk
memory cache is rejected by the assert before any view is constructed; every
other combination of the two flags constructs successfully (fft type). -/
theorem C7_cache_flags_exclusive (butter : ℕ → ℝ → ℝ → List ℝ × List ℝ)
    (recording : Recording) (fmin fmax fwid : ℝ) (order chunk_size : ℕ)
    (ctf cch : Bool) :
    ((ctf && cch) = true →
      bandpass_filter butter recording fmin fmax fwid "fft" order chunk_size ctf cch =
        Except.error "if cache_to_file cache_chunks should be False") ∧
    ((ctf && cch) = false →
      ∃ out, bandpass_filter butter recording fmin fmax fwid "fft" order chunk_size ctf cch =
        Except.ok out) := by
  constructor
  · intro h
    unfold bandpass_filter
    rw [if_pos h]
  · intro h
    have hne : ¬((ctf && cch) = true) := by simp [h]
    unfold bandpass_filter
    rw [if_neg hne]
    have hinit : bandpassInit butter recording ⟨fmin, fmax, fwid, "fft", order, chunk_size⟩ =
        Except.ok ⟨recording, ⟨fmin, fmax, fwid, "fft", order, chunk_size⟩, none⟩ := by
      unfold bandpassInit
      rw [if_neg (by decide : ¬(("fft" : String) = "butter"))]
    rw [hinit]
    cases ctf
    · exact ⟨_, rfl⟩
    · exact ⟨_, rfl⟩

theorem C7_cache_flags_exclusive_witness :
    (bandpass_filter butterTrivW recW 300 6000 1000 "fft" 3 30000 true true =
      Except.error "if cache_to_file cache_chunks should be False") ∧
    (∃ out, bandpass_filter butterTrivW recW 300 6000 1000 "fft" 3 30000 true false =
      Except.ok out) :=
  ⟨(C7_cache_flags_exclusive butterTrivW recW 300 6000 1000 3 30000 true true).1 rfl,
   (C7_cache_flags_exclusive butterTrivW recW 300 6000 1000 3 30000 true false).2 rfl⟩

/-- C10: filter_type is not validated at construction: for any filter_type
other than butter no coefficient design or stability check happens (the
constructed result does not depend on the designer at all) and construction
succeeds; and when filter_type is neither fft nor butter, _do_filter assigns
no result (none) for every chunk, so the error surfaces only at the first
filtering call, not at construction time. -/
theorem C10_no_type_validation (butter1 butter2 : ℕ → ℝ → ℝ → List ℝ × List ℝ)
    (recording : Recording) (p : BPParams) (hnb : p.filter_type ≠ "butter") :
    bandpassInit butter1 recording p = bandpassInit butter2 recording p ∧
    bandpassInit butter1 recording p = Except.ok ⟨recording, p, none⟩ ∧
    (p.filter_type ≠ "fft" →
      ∀ A : Mat, do_filter ⟨recording, p, none⟩ A = none) := by
  have h1 : bandpassInit butter1 recording p = Except.ok ⟨recording, p, none⟩ := by
    unfold bandpassInit
    rw [if_neg hnb]
  have h2 : bandpassInit butter2 recording p = Except.ok ⟨recording, p, none⟩ := by
    unfold bandpassInit
    rw [if_neg hnb]
  refine ⟨h1.trans h2.symm, h1, ?_⟩
  intro hnf A
  simp [do_filter, hnf, hnb]

theorem C10_no_type_validation_witness :
    bandpassInit butterUnstableW recW pHannW = bandpassInit butterTrivW recW pHannW ∧
    bandpassInit butterUnstableW recW pHannW = Except.ok ⟨recW, pHannW, none⟩ ∧
    do_filter ⟨recW, pHannW, none⟩ cosMat = none := by
  obtain ⟨ha, hb, hc⟩ :=
    C10_no_type_validation butterUnstableW butterTrivW recW pHannW (by decide)
  exact ⟨ha, hb, hc (by decide) cosMat⟩

/-! ## The discrete Fourier transform pair -/

@[simp] theorem mkMat_entry (r c : ℕ) (f : ℕ → ℕ → ℝ) (i j : ℕ) :
    (mkMat r c f).entry i j = if i < r ∧ j < c then f i j else 0 := rfl

/-- Geometric sum of the rotation exp(2 pi i d / n) over one period. -/
theorem sum_exp_rot (n : ℕ) (hn : 0 < n) (d : ℤ) :
    (∑ k in Finset.range n,
      Complex.exp (2 * (Real.pi : ℂ) * Complex.I * (d : ℂ) * (k : ℂ) / (n : ℂ))) =
      if (n : ℤ) ∣ d then (n : ℂ) else 0 := by
  have hn0 : ((n : ℂ)) ≠ 0 := Nat.cast_ne_zero.mpr hn.ne'
  have hterm : ∀ k : ℕ,
      Complex.exp (2 * (Real.pi : ℂ) * Complex.I * (d : ℂ) * (k : ℂ) / (n : ℂ)) =
      Complex.exp (2 * (Real.pi : ℂ) * Complex.I * (d : ℂ) / (n : ℂ)) ^ k := by
    intro k
    rw [← Complex.exp_nat_mul]
    congr 1
    ring
  rw [Finset.sum_congr rfl (fun k _ => hterm k)]
  by_cases hdvd : (n : ℤ) ∣ d
  · obtain ⟨c, hc⟩ := hdvd
    have hr1 : Complex.exp (2 * (Real.pi : ℂ) * Complex.I * (d : ℂ) / (n : ℂ)) = 1 := by
      have harg : 2 * (Real.pi : ℂ) * Complex.I * (d : ℂ) / (n : ℂ) =
          (c : ℂ) * (2 * (Real.pi : ℂ) * Complex.I) := by
        rw [hc, div_eq_iff hn0]
        push_cast
        ring
      rw [harg]
      exact Complex.exp_int_mul_two_pi_mul_I c
    rw [if_pos ⟨c, hc⟩]
    simp [hr1]
  · have h2pi : (2 * (Real.pi : ℂ) * Complex.I) ≠ 0 := by
      have hπ : (Real.pi : ℂ) ≠ 0 := Complex.ofReal_ne_zero.mpr Real.pi_ne_zero
      exact mul_ne_zero (mul_ne_zero two_ne_zero hπ) Complex.I_ne_zero
    have hr1 : Complex.exp (2 * (Real.pi : ℂ) * Complex.I * (d : ℂ) / (n : ℂ)) ≠ 1 := by
      intro h
      rw [Complex.exp_eq_one_iff] at h
      obtain ⟨m, hm⟩ := h
      apply hdvd
      refine ⟨m, ?_⟩
      have h2 : ((d : ℂ) / (n : ℂ)) * (2 * (Real.pi : ℂ) * Complex.I) =
          (m : ℂ) * (2 * (Real.pi : ℂ) * Complex.I) := by
        rw [← hm]
        ring
      have h3 : (d : ℂ) / (n : ℂ) = (m : ℂ) := mul_right_cancel₀ h2pi h2
      rw [div_eq_iff hn0] at h3
      have h4 : d = m * n := by exact_mod_cast h3
      rw [h4]
      ring
    rw [geom_sum_eq hr1, if_neg hdvd]
    have hrn : Complex.exp (2 * (Real.pi : ℂ) * Complex.I * (d : ℂ) / (n : ℂ)) ^ n = 1 := by
      rw [← Complex.exp_nat_mul]
      have harg : (n : ℂ) * (2 * (Real.pi : ℂ) * Complex.I * (d : ℂ) / (n : ℂ)) =
          (d : ℂ) * (2 * (Real.pi : ℂ) * Complex.I) := by
        field_simp
        ring
      rw [harg]
      exact Complex.exp_int_mul_two_pi_mul_I d
    rw [hrn]
    simp

/-- Inversion: resynthesising the DFT spectrum at position j recovers n
times the input value. -/
theorem dft_inversion (n : ℕ) (hn : 0 < n) (x : ℕ → ℂ) (j : ℕ) (hj : j < n) :
    (∑ k in Finset.range n, dftc n x k *
      Complex.exp (2 * (Real.pi : ℂ) * Complex.I * (j : ℂ) * (k : ℂ) / (n : ℂ))) =
      (n : ℂ) * x j := by
  calc (∑ k in Finset.range n, dftc n x k *
      Complex.exp (2 * (Real.pi : ℂ) * Complex.I * (j : ℂ) * (k : ℂ) / (n : ℂ)))
      = ∑ k in Finset.range n, ∑ j2 in Finset.range n,
          x j2 * Complex.exp (2 * (Real.pi : ℂ) * Complex.I * (((j : ℤ) - (j2 : ℤ) : ℤ) : ℂ) *
            (k : ℂ) / (n : ℂ)) := by
        apply Finset.sum_congr rfl
        intro k _
        unfold dftc
        rw [Finset.sum_mul]
        apply Finset.sum_congr rfl
        intro j2 _
        rw [mul_assoc, ← Complex.exp_add]
        congr 1
        push_cast
        ring
    _ = ∑ j2 in Finset.range n, ∑ k in Finset.range n,
          x j2 * Complex.exp (2 * (Real.pi : ℂ) * Complex.I * (((j : ℤ) - (j2 : ℤ) : ℤ) : ℂ) *
            (k : ℂ) / (n : ℂ)) := Finset.sum_comm
    _ = ∑ j2 in Finset.range n,
          x j2 * (if (n : ℤ) ∣ ((j : ℤ) - (j2 : ℤ)) then (n : ℂ) else 0) := by
        apply Finset.sum_congr rfl
        intro j2 _
        rw [← Finset.mul_sum, sum_exp_rot n hn ((j : ℤ) - (j2 : ℤ))]
    _ = ∑ j2 in Finset.range n, (if j2 = j then x j2 * (n : ℂ) else 0) := by
        apply Finset.sum_congr rfl
        intro j2 hj2
        have hj2' : j2 < n := Finset.mem_range.mp hj2
        have hiff : ((n : ℤ) ∣ ((j : ℤ) - (j2 : ℤ))) ↔ j2 = j := by
          constructor
          · intro hdvd
            have h0 : ((j : ℤ) - (j2 : ℤ)) = 0 :=
              Int.eq_zero_of_dvd_of_natAbs_lt_natAbs hdvd (by omega)
            omega
          · intro h
            rw [h]
            simp
        rw [if_congr hiff rfl rfl, mul_ite, mul_zero]
    _ = (n : ℂ) * x j := by
        rw [Finset.sum_ite_eq' (Finset.range n) j (fun j2 => x j2 * (n : ℂ))]
        rw [if_pos (Finset.mem_range.mpr hj)]
        ring

/-- The DFT of real input is Hermitian: conjugating bin n - k gives bin k. -/
theorem conj_rfft (n : ℕ) (hn : 0 < n) (x : ℕ → ℝ) (k : ℕ) (hk : k ≤ n) :
    starRingEnd ℂ (rfft n x (n - k)) = rfft n x k := by
  have hn0 : ((n : ℂ)) ≠ 0 := Nat.cast_ne_zero.mpr hn.ne'
  unfold rfft dftc
  rw [map_sum]
  apply Finset.sum_congr rfl
  intro j _
  rw [map_mul, Complex.conj_ofReal]
  congr 1
  rw [← Complex.exp_conj]
  have hconj : (starRingEnd ℂ)
      (-(2 * (Real.pi : ℂ) * Complex.I * (j : ℂ) * ((n - k : ℕ) : ℂ)) / (n : ℂ)) =
      (2 * (Real.pi : ℂ) * Complex.I * (j : ℂ) * ((n - k : ℕ) : ℂ)) / (n : ℂ) := by
    simp only [map_div₀, map_neg, map_mul, Complex.conj_I, Complex.conj_ofReal,
      map_ofNat, map_natCast]
    ring
  rw [hconj]
  have hm : ((n - k : ℕ) : ℂ) = (n : ℂ) - (k : ℂ) := Nat.cast_sub hk
  rw [hm]
  have hsplit : (2 * (Real.pi : ℂ) * Complex.I * (j : ℂ) * ((n : ℂ) - (k : ℂ))) / (n : ℂ) =
      (j : ℂ) * (2 * (Real.pi : ℂ) * Complex.I) +
      (-(2 * (Real.pi : ℂ) * Complex.I * (j : ℂ) * (k : ℂ)) / (n : ℂ)) := by
    field_simp
    ring
  rw [hsplit, Complex.exp_add]
  have hj1 : Complex.exp ((j : ℂ) * (2 * (Real.pi : ℂ) * Complex.I)) = 1 := by
    have h := Complex.exp_int_mul_two_pi_mul_I (j : ℤ)
    push_cast at h
    exact h
  rw [hj1, one_mul]

/-- For an even window length, irfft of rfft is the identity on the window. -/
theorem irfft_rfft (n : ℕ) (hn2 : 2 ∣ n) (hn : 0 < n) (x : ℕ → ℝ) (j : ℕ) (hj : j < n) :
    irfft (n / 2 + 1) (fun k => rfft n x k) j = x j := by
  have hn0 : ((n : ℂ)) ≠ 0 := Nat.cast_ne_zero.mpr hn.ne'
  have hm : 2 * (n / 2 + 1 - 1) = n := by omega
  have hext : ∀ k, k < n → hermExt (n / 2 + 1) (fun k2 => rfft n x k2) k = rfft n x k := by
    intro k hk
    unfold hermExt
    by_cases hlt : k < n / 2 + 1
    · rw [if_pos hlt]
    · rw [if_neg hlt, hm]
      exact conj_rfft n hn x k hk.le
  unfold irfft
  rw [hm]
  have hsum : (∑ k in Finset.range n, hermExt (n / 2 + 1) (fun k2 => rfft n x k2) k *
      Complex.exp (2 * (Real.pi : ℂ) * Complex.I * (j : ℂ) * (k : ℂ) / ((n : ℕ) : ℂ))) =
      (n : ℂ) * ((x j : ℝ) : ℂ) := by
    rw [Finset.sum_congr rfl (fun k hk => by
      rw [hext k (Finset.mem_range.mp hk)])]
    exact dft_inversion n hn (fun j2 => ((x j2 : ℝ) : ℂ)) j hj
  rw [hsum]
  have : (1 / ((n : ℕ) : ℂ)) * ((n : ℂ) * ((x j : ℝ) : ℂ)) = ((x j : ℝ) : ℂ) := by
    field_simp
  rw [this]
  exact Complex.ofReal_re _

/-- With the all pass kernel (freq_min = freq_max = 0) the fft filter is the
identity on arrays with an even number of columns. -/
theorem doFilterFFT_allpass (fs fwid : ℝ) (r c : ℕ) (g : ℕ → ℕ → ℝ) (h2 : 2 ∣ c) :
    doFilterFFT fs 0 0 fwid (mkMat r c g) = mkMat r c g := by
  apply Mat.ext'
  · rfl
  · simp only [doFilterFFT_cols, mkMat_cols]
    omega
  · funext i j
    simp only [doFilterFFT, mkMat_rows, mkMat_cols, mkMat_entry]
    by_cases hb : i < r ∧ j < c
    · rw [if_pos (by omega : i < r ∧ j < 2 * (c / 2 + 1 - 1)), if_pos hb]
      have hker : (fun k => rfft c ((mkMat r c g).entry i) k *
          ((filterKernel c fs 0 0 fwid k : ℝ) : ℂ)) =
          fun k => rfft c ((mkMat r c g).entry i) k := by
        funext k
        rw [filterKernel_allpass]
        norm_num
      rw [hker]
      have hx := irfft_rfft c h2 (by omega) ((mkMat r c g).entry i) j hb.2
      rw [hx, mkMat_entry, if_pos hb]
    · rw [if_neg (by omega : ¬(i < r ∧ j < 2 * (c / 2 + 1 - 1))), if_neg hb]

/-! ## Quarter turn exponentials and the four point transform -/

theorem cexp_pi_div_two_mul_I : Complex.exp ((Real.pi : ℂ) / 2 * Complex.I) = Complex.I := by
  rw [Complex.exp_mul_I]
  have hc : Complex.cos ((Real.pi : ℂ) / 2) = 0 := by
    rw [show ((Real.pi : ℂ) / 2) = ((Real.pi / 2 : ℝ) : ℂ) from by push_cast; ring,
      ← Complex.ofReal_cos, Real.cos_pi_div_two, Complex.ofReal_zero]
  have hs : Complex.sin ((Real.pi : ℂ) / 2) = 1 := by
    rw [show ((Real.pi : ℂ) / 2) = ((Real.pi / 2 : ℝ) : ℂ) from by push_cast; ring,
      ← Complex.ofReal_sin, Real.sin_pi_div_two, Complex.ofReal_one]
  rw [hc, hs, one_mul, zero_add]

theorem cexp_neg_pi_div_two_mul_I :
    Complex.exp (-((Real.pi : ℂ) / 2) * Complex.I) = -Complex.I := by
  rw [Complex.exp_mul_I, Complex.cos_neg, Complex.sin_neg]
  have hc : Complex.cos ((Real.pi : ℂ) / 2) = 0 := by
    rw [show ((Real.pi : ℂ) / 2) = ((Real.pi / 2 : ℝ) : ℂ) from by push_cast; ring,
      ← Complex.ofReal_cos, Real.cos_pi_div_two, Complex.ofReal_zero]
  have hs : Complex.sin ((Real.pi : ℂ) / 2) = 1 := by
    rw [show ((Real.pi : ℂ) / 2) = ((Real.pi / 2 : ℝ) : ℂ) from by push_cast; ring,
      ← Complex.ofReal_sin, Real.sin_pi_div_two, Complex.ofReal_one]
  rw [hc, hs]
  ring

theorem cexp_quarter (m : ℕ) :
    Complex.exp (2 * (Real.pi : ℂ) * Complex.I * (m : ℂ) / ((4 : ℕ) : ℂ)) = Complex.I ^ m := by
  have harg : 2 * (Real.pi : ℂ) * Complex.I * (m : ℂ) / ((4 : ℕ) : ℂ) =
      (m : ℂ) * ((Real.pi : ℂ) / 2 * Complex.I) := by
    push_cast
    ring
  rw [harg, Complex.exp_nat_mul, cexp_pi_div_two_mul_I]

theorem cexp_neg_quarter (m : ℕ) :
    Complex.exp (-(2 * (Real.pi : ℂ) * Complex.I * (m : ℂ)) / ((4 : ℕ) : ℂ)) =
      (-Complex.I) ^ m := by
  have harg : -(2 * (Real.pi : ℂ) * Complex.I * (m : ℂ)) / ((4 : ℕ) : ℂ) =
      (m : ℂ) * (-((Real.pi : ℂ) / 2) * Complex.I) := by
    push_cast
    ring
  rw [harg, Complex.exp_nat_mul, cexp_neg_pi_div_two_mul_I]

theorem exp_term4_neg (j k : ℕ) :
    Complex.exp (-(2 * (Real.pi : ℂ) * Complex.I * (j : ℂ) * (k : ℂ)) / ((4 : ℕ) : ℂ)) =
      (-Complex.I) ^ (j * k) := by
  have h : -(2 * (Real.pi : ℂ) * Complex.I * (j : ℂ) * (k : ℂ)) / ((4 : ℕ) : ℂ) =
      -(2 * (Real.pi : ℂ) * Complex.I * ((j * k : ℕ) : ℂ)) / ((4 : ℕ) : ℂ) := by
    push_cast
    ring
  rw [h, cexp_neg_quarter]

theorem exp_term4_pos (j k : ℕ) :
    Complex.exp (2 * (Real.pi : ℂ) * Complex.I * (j : ℂ) * (k : ℂ) / ((4 : ℕ) : ℂ)) =
      Complex.I ^ (j * k) := by
  have h : 2 * (Real.pi : ℂ) * Complex.I * (j : ℂ) * (k : ℂ) / ((4 : ℕ) : ℂ) =
      2 * (Real.pi : ℂ) * Complex.I * ((j * k : ℕ) : ℂ) / ((4 : ℕ) : ℂ) := by
    push_cast
    ring
  rw [h, cexp_quarter]

theorem rfft4 (x : ℕ → ℝ) (k : ℕ) :
    rfft 4 x k = ((x 0 : ℝ) : ℂ) + ((x 1 : ℝ) : ℂ) * (-Complex.I) ^ k +
      ((x 2 : ℝ) : ℂ) * (-Complex.I) ^ (2 * k) + ((x 3 : ℝ) : ℂ) * (-Complex.I) ^ (3 * k) := by
  unfold rfft dftc
  rw [Finset.sum_range_succ, Finset.sum_range_succ, Finset.sum_range_succ,
    Finset.sum_range_succ, Finset.sum_range_zero]
  simp only [exp_term4_neg]
  norm_num

theorem irfft3 (y : ℕ → ℂ) (j : ℕ) :
    irfft 3 y j = ((1 / ((4 : ℕ) : ℂ)) * (y 0 + y 1 * Complex.I ^ j +
      y 2 * Complex.I ^ (j * 2) + (starRingEnd ℂ) (y 1) * Complex.I ^ (j * 3))).re := by
  unfold irfft
  have h4 : (2 * (3 - 1) : ℕ) = 4 := rfl
  rw [h4]
  rw [Finset.sum_range_succ, Finset.sum_range_succ, Finset.sum_range_succ,
    Finset.sum_range_succ, Finset.sum_range_zero]
  simp only [hermExt, exp_term4_pos]
  norm_num

theorem negI_sq : (-Complex.I) ^ 2 = -1 := by
  rw [neg_pow]
  norm_num [Complex.I_sq]

@[simp] theorem cosMat_rows : cosMat.rows = 1 := rfl

@[simp] theorem cosMat_cols : cosMat.cols = 4 := rfl

/-- At a window of four samples, bin one of the kernel lies strictly between
zero and one as soon as the configuration is not the all pass one. -/
theorem K4_bin1_mem (fs fmin fmax fwid : ℝ) (hne : ¬(fmin = 0 ∧ fmax = 0)) :
    0 < filterKernel 4 fs fmin fmax fwid 1 ∧ filterKernel 4 fs fmin fmax fwid 1 < 1 := by
  have hdc : ¬(10 * |foldInd 4 1| < 1) := by decide
  have hval : 0 < filterVal 4 fs fmin fmax fwid 1 ∧ filterVal 4 fs fmin fmax fwid 1 < 1 := by
    unfold filterVal
    by_cases h1 : fmin = 0
    · have h2 : fmax ≠ 0 := fun h => hne ⟨h1, h⟩
      rw [if_neg (not_not_intro h1), if_pos h2, one_mul]
      exact ⟨lp_factor_pos _, lp_factor_lt_one _⟩
    · rw [if_pos h1, if_neg hdc, one_mul]
      by_cases h2 : fmax = 0
      · rw [if_neg (not_not_intro h2), mul_one]
        exact ⟨hp_factor_pos _, hp_factor_lt_one _⟩
      · rw [if_pos h2]
        have ha := hp_factor_pos (3 * (|fgrid 4 fs 1| - fmin) / fmin)
        have hb := hp_factor_lt_one (3 * (|fgrid 4 fs 1| - fmin) / fmin)
        have hc := lp_factor_pos ((|fgrid 4 fs 1| - fmax) / fwid)
        have hd := lp_factor_lt_one ((|fgrid 4 fs 1| - fmax) / fwid)
        exact ⟨mul_pos ha hc, by nlinarith⟩
  refine ⟨Real.sqrt_pos.mpr hval.1, ?_⟩
  unfold filterKernel
  rw [Real.sqrt_lt' one_pos, one_pow]
  exact hval.2

/-- The (0, j) entry of the fft filter of a one channel, four sample chunk,
expressed through the three bin half spectrum. -/
theorem doFilterFFT_entry_of4 (fs fmin fmax fwid : ℝ) (B : Mat)
    (hr : B.rows = 1) (hc : B.cols = 4) (j : ℕ) (hj : j < 4) :
    (doFilterFFT fs fmin fmax fwid B).entry 0 j =
      irfft 3 (fun k => rfft 4 (B.entry 0) k *
        ((filterKernel 4 fs fmin fmax fwid k : ℝ) : ℂ)) j := by
  simp only [doFilterFFT, mkMat_entry, hr, hc]
  rw [if_pos (by omega : 0 < 1 ∧ j < 2 * (4 / 2 + 1 - 1))]

/-- C8: applying the fft branch of _do_filter twice equals applying it once
for every chunk in the limiting all pass case freq_min = freq_max = 0; and
for every configuration that is not all pass (with a positive width when
freq_max is nonzero) there is a chunk, namely a pure cosine, on which two
sequential passes differ from one pass. -/
theorem C8_idempotent_iff_allpass :
    (∀ (fs fwid : ℝ) (A : Mat),
      doFilterFFT fs 0 0 fwid (doFilterFFT fs 0 0 fwid A) = doFilterFFT fs 0 0 fwid A) ∧
    (∀ (fs fmin fmax fwid : ℝ), ¬(fmin = 0 ∧ fmax = 0) → (fmax ≠ 0 → 0 < fwid) →
      ∃ A : Mat,
        (doFilterFFT fs fmin fmax fwid (doFilterFFT fs fmin fmax fwid A)).entry 0 0 ≠
          (doFilterFFT fs fmin fmax fwid A).entry 0 0) := by
  constructor
  · intro fs fwid A
    exact doFilterFFT_allpass fs fwid A.rows (2 * (A.cols / 2 + 1 - 1)) _
      ⟨A.cols / 2 + 1 - 1, rfl⟩
  · intro fs fmin fmax fwid hne hwid
    refine ⟨cosMat, ?_⟩
    obtain ⟨hK1pos, hK1lt⟩ := K4_bin1_mem fs fmin fmax fwid hne
    have hI3 : Complex.I ^ 3 = -Complex.I := by
      rw [pow_succ, Complex.I_sq]
      ring
    have hI6 : Complex.I ^ 6 = -1 := by
      rw [show (6 : ℕ) = 2 * 3 from rfl, pow_mul, Complex.I_sq]
      norm_num
    have hI9 : Complex.I ^ 9 = Complex.I := by
      rw [show (9 : ℕ) = 2 * 4 + 1 from rfl, pow_succ, pow_mul, Complex.I_sq]
      norm_num
    -- the spectrum of the cosine row
    have hrowx : ∀ k : ℕ, rfft 4 (cosMat.entry 0) k = 1 - (-1 : ℂ) ^ k := by
      intro k
      rw [rfft4]
      have e0 : cosMat.entry 0 0 = 1 := rfl
      have e1 : cosMat.entry 0 1 = 0 := rfl
      have e2 : cosMat.entry 0 2 = -1 := rfl
      have e3 : cosMat.entry 0 3 = 0 := rfl
      rw [e0, e1, e2, e3]
      push_cast
      rw [pow_mul, negI_sq]
      ring
    -- one filtering pass multiplies the cosine row by the bin one gain
    have hpass1 : ∀ j, j < 4 →
        (doFilterFFT fs fmin fmax fwid cosMat).entry 0 j =
          filterKernel 4 fs fmin fmax fwid 1 * cosRow j := by
      intro j hj
      rw [doFilterFFT_entry_of4 fs fmin fmax fwid cosMat rfl rfl j hj, irfft3]
      simp only [hrowx]
      have hz : (1 / ((4 : ℕ) : ℂ)) *
          ((1 - (-1 : ℂ) ^ 0) * ((filterKernel 4 fs fmin fmax fwid 0 : ℝ) : ℂ) +
           (1 - (-1 : ℂ) ^ 1) * ((filterKernel 4 fs fmin fmax fwid 1 : ℝ) : ℂ) * Complex.I ^ j +
           (1 - (-1 : ℂ) ^ 2) * ((filterKernel 4 fs fmin fmax fwid 2 : ℝ) : ℂ) * Complex.I ^ (j * 2) +
           (starRingEnd ℂ) ((1 - (-1 : ℂ) ^ 1) * ((filterKernel 4 fs fmin fmax fwid 1 : ℝ) : ℂ)) *
             Complex.I ^ (j * 3)) =
          ((filterKernel 4 fs fmin fmax fwid 1 * cosRow j : ℝ) : ℂ) := by
        interval_cases j
        · simp only [map_mul, map_sub, map_one, map_pow, map_neg, map_ofNat, Complex.conj_ofReal]
          norm_num [cosRow]
          ring
        · simp only [map_mul, map_sub, map_one, map_pow, map_neg, map_ofNat, Complex.conj_ofReal]
          norm_num [cosRow, hI3]
        · simp only [map_mul, map_sub, map_one, map_pow, map_neg, map_ofNat, Complex.conj_ofReal]
          norm_num [cosRow, Complex.I_sq, hI6]
          ring
        · simp only [map_mul, map_sub, map_one, map_pow, map_neg, map_ofNat, Complex.conj_ofReal]
          norm_num [cosRow, hI3, hI9]
      rw [hz, Complex.ofReal_re]
    -- the spectrum of the once filtered row
    have hrow2 : ∀ k : ℕ, rfft 4 ((doFilterFFT fs fmin fmax fwid cosMat).entry 0) k =
        ((filterKernel 4 fs fmin fmax fwid 1 : ℝ) : ℂ) * (1 - (-1 : ℂ) ^ k) := by
      intro k
      rw [rfft4, hpass1 0 (by norm_num), hpass1 1 (by norm_num), hpass1 2 (by norm_num),
        hpass1 3 (by norm_num)]
      have c0 : cosRow 0 = 1 := rfl
      have c1 : cosRow 1 = 0 := rfl
      have c2 : cosRow 2 = -1 := rfl
      have c3 : cosRow 3 = 0 := rfl
      rw [c0, c1, c2, c3]
      push_cast
      rw [pow_mul, negI_sq]
      ring
    -- the second pass squares the bin one gain at position zero
    have hpass2 : (doFilterFFT fs fmin fmax fwid (doFilterFFT fs fmin fmax fwid cosMat)).entry 0 0 =
        filterKernel 4 fs fmin fmax fwid 1 * filterKernel 4 fs fmin fmax fwid 1 := by
      rw [doFilterFFT_entry_of4 fs fmin fmax fwid _ rfl rfl 0 (by norm_num), irfft3]
      simp only [hrow2]
      have hz : (1 / ((4 : ℕ) : ℂ)) *
          (((filterKernel 4 fs fmin fmax fwid 1 : ℝ) : ℂ) * (1 - (-1 : ℂ) ^ 0) *
             ((filterKernel 4 fs fmin fmax fwid 0 : ℝ) : ℂ) +
           ((filterKernel 4 fs fmin fmax fwid 1 : ℝ) : ℂ) * (1 - (-1 : ℂ) ^ 1) *
             ((filterKernel 4 fs fmin fmax fwid 1 : ℝ) : ℂ) * Complex.I ^ 0 +
           ((filterKernel 4 fs fmin fmax fwid 1 : ℝ) : ℂ) * (1 - (-1 : ℂ) ^ 2) *
             ((filterKernel 4 fs fmin fmax fwid 2 : ℝ) : ℂ) * Complex.I ^ (0 * 2) +
           (starRingEnd ℂ) (((filterKernel 4 fs fmin fmax fwid 1 : ℝ) : ℂ) * (1 - (-1 : ℂ) ^ 1) *
             ((filterKernel 4 fs fmin fmax fwid 1 : ℝ) : ℂ)) * Complex.I ^ (0 * 3)) =
          ((filterKernel 4 fs fmin fmax fwid 1 * filterKernel 4 fs fmin fmax fwid 1 : ℝ) : ℂ) := by
        simp only [map_mul, map_sub, map_one, map_pow, map_neg, map_ofNat, Complex.conj_ofReal]
        norm_num
        ring
      rw [hz, Complex.ofReal_re]
    rw [hpass2, hpass1 0 (by norm_num)]
    rw [show cosRow 0 = 1 from rfl, mul_one]
    intro heq
    nlinarith

theorem C8_idempotent_iff_allpass_witness :
    doFilterFFT 1 0 0 1000 (doFilterFFT 1 0 0 1000 cosMat) = doFilterFFT 1 0 0 1000 cosMat ∧
    ∃ A : Mat, (doFilterFFT 1 300 6000 1000 (doFilterFFT 1 300 6000 1000 A)).entry 0 0 ≠
      (doFilterFFT 1 300 6000 1000 A).entry 0 0 :=
  ⟨C8_idempotent_iff_allpass.1 1 1000 cosMat,
   C8_idempotent_iff_allpass.2 1 300 6000 1000 (by norm_num) (fun _ => by norm_num)⟩
